import Mathlib

set_option maxRecDepth 200000

/-!
Verification of the pull-request "Database changes" reconciliation scripts.

The repository contains two variants of one GitHub Actions script:
* `src/.github/scripts/pr-db-changes.js` (the do/undo-aware variant, "variant B"),
* `src/unnamed/part_000` (the flat-list variant, "variant A").

Strings are modelled as `List Char`.  All string operations of the scripts
(`startsWith`, `split`, `trimEnd`, the global non-greedy regex replacement of
the marker-delimited section, the migration-basename regex test) are embedded
as executable structural recursions over `List Char`.
-/

namespace PrDb

/-- Strings are modelled as lists of characters. -/
abbrev Str := List Char

/-- Convert a Lean string literal to the model representation. -/
def str (s : String) : Str := s.data

/-- Boolean test that `p` is a prefix of `s` (JS `String.prototype.startsWith`). -/
def lpre : Str → Str → Bool
  | [], _ => true
  | _ :: _, [] => false
  | a :: as, b :: bs => a == b && lpre as bs

/-- Index of the first occurrence of `pat` in `s`, if any
(JS `RegExp` scanning for a literal pattern). -/
def findOcc (pat : Str) : Str → Option Nat
  | [] => if lpre pat [] then some 0 else none
  | c :: t => if lpre pat (c :: t) then some 0 else (findOcc pat t).map (· + 1)

/-- The whitespace test used by JS `String.prototype.trimEnd`
(ASCII whitespace plus the common Unicode space characters). -/
def isWs (c : Char) : Bool :=
  c == ' ' || c == '\t' || c == '\n' || c == '\r' || c == '\u000b' || c == '\u000c' ||
  c == '\u00a0' || c == '\ufeff' || c == '\u2028' || c == '\u2029'

/-- JS `String.prototype.trimEnd`: remove trailing whitespace. -/
def trimEnd (s : Str) : Str := (s.reverse.dropWhile isWs).reverse

/-- JS `String.prototype.split` with a single-character separator. -/
def splitCh (c : Char) : Str → List Str
  | [] => [[]]
  | x :: xs =>
    if x == c then [] :: splitCh c xs
    else
      match splitCh c xs with
      | h :: t => (x :: h) :: t
      | [] => [[x]]

/-- Join a list of strings with a separator (JS `Array.prototype.join`). -/
def joinSep (sep : Str) : List Str → Str
  | [] => []
  | [x] => x
  | x :: xs => x ++ sep ++ joinSep sep xs

/-- Decimal digit character. -/
def digitChar (n : Nat) : Char := Char.ofNat (48 + n)

/-- Fuelled decimal rendering helper. -/
def natDigsF : Nat → Nat → Str
  | 0, _ => []
  | fuel + 1, n =>
    if n < 10 then [digitChar n]
    else natDigsF fuel (n / 10) ++ [digitChar (n % 10)]

/-- Decimal rendering of a natural number (JS number-to-string in a template). -/
def natStr (n : Nat) : Str := natDigsF (n + 1) n

/-! ### Constants of the scripts -/

/-- Section start marker `START` of both scripts. -/
def startM : Str := str "<!-- DATABASE_CHANGES_START -->"

/-- Section end marker `END` of both scripts. -/
def endM : Str := str "<!-- DATABASE_CHANGES_END -->"

/-- The label name `labelName` of both scripts. -/
def labelName : Str := str "Database changes"

/-- Section heading: `"### " + labelName`. -/
def heading : Str := str "### " ++ labelName

/-- The migrations path `targetPrefix` of both scripts. -/
def migDir : Str := str "database/rentec/schema/migrations/"

/-- The blank-line separator used by `[a, b].filter(Boolean).join("\n\n")`. -/
def nl2 : Str := str "\n\n"

/-! ### Data model -/

/-- A changed-file record as returned by the file-listing API:
`filename`, `status`, and the optional unified-diff `patch`. -/
structure FileChange where
  filename : Str
  status : Str
  patch : Option Str
deriving DecidableEq

/-- The change detector of both scripts:
`files.filter(f => f.status === 'added' && f.filename.startsWith(targetPrefix))`. -/
def addedMigrations (files : List FileChange) : List FileChange :=
  files.filter (fun f => f.status == str "added" && lpre migDir f.filename)

/-- Source `fileUrl`: `https://github.com/OWNER/REPO/blob/SHA/FILENAME`. -/
def fileUrl (o r sha p : Str) : Str :=
  str "https://github.com/" ++ o ++ str "/" ++ r ++ str "/blob/" ++ sha ++ str "/" ++ p

/-- Source `f.filename.split("/").pop()`: the basename of a path. -/
def baseName (p : Str) : Str := (splitCh '/' p).getLastD []

/-- Source `fileLink`: a markdown link whose text is the basename. -/
def fileLink (o r sha : Str) (f : FileChange) : Str :=
  str "[" ++ baseName f.filename ++ str "](" ++ fileUrl o r sha f.filename ++ str ")"

/-- The bullet-list rendering shared by both scripts:
one line `- [basename](url)` per file, joined with newlines. -/
def linesA (fs : List FileChange) (o r sha : Str) : Str :=
  joinSep (str "\n") (fs.map (fun f => str "- " ++ fileLink o r sha f))

/-! ### Body reconciliation (shared by both variants) -/

/-- One step of the global replacement of `START[\s\S]*?END` by the empty
string: locate the leftmost match (first `START` occurrence, then the first
`END` occurrence at or after the end of that `START`), and return the text
before the match together with the unscanned text after it.  `none` when no
match exists. -/
def matchSplit (s : Str) : Option (Str × Str) :=
  match findOcc startM s with
  | none => none
  | some p =>
    match findOcc endM (s.drop (p + startM.length)) with
    | none => none
    | some q => some (s.take p, (s.drop (p + startM.length)).drop (q + endM.length))

/-- Fuelled removal of every match, scanning left to right and continuing
after each removed match (JS `String.prototype.replace` with a global regex). -/
def stripAllF : Nat → Str → Str
  | 0, s => s
  | fuel + 1, s =>
    match matchSplit s with
    | none => s
    | some (a, r) => a ++ stripAllF fuel r

/-- Source `oldBody.replace(regex, "")`: remove every `START...END` match. -/
def stripAll (s : Str) : Str := stripAllF s.length s

/-- Fuelled count of the matches removed by `stripAll`. -/
def countF : Nat → Str → Nat
  | 0, _ => 0
  | fuel + 1, s =>
    match matchSplit s with
    | none => 0
    | some (_, r) => countF fuel r + 1

/-- Number of marker-delimited sections (regex matches) in a body. -/
def countMatches (s : Str) : Nat := countF s.length s

/-- Source `[a, b].filter(Boolean).join("\n\n")`. -/
def joinBody (a b : Str) : Str :=
  if a = [] then b else if b = [] then a else a ++ nl2 ++ b

/-- The body computation shared by both scripts: strip any existing section
from the old body, trim trailing whitespace, and join with the new section. -/
def reconcileBody (sect old : Str) : Str := joinBody (trimEnd (stripAll old)) sect

/-! ### Variant A (flat list, `src/unnamed/part_000`) -/

/-- Variant A section: empty when there are no lines, otherwise the markers
around the heading, the fixed sentence and the bullet list. -/
def sectionA (dl : List FileChange) (o r sha : Str) : Str :=
  let L := linesA dl o r sha
  if L = [] then []
  else
    startM ++
      (str "\n" ++ heading ++ str "\n\nThis PR adds the following migration files:\n\n" ++
        L ++ nl2) ++ endM

/-- Variant A new body for a run: detector, section rendering, reconciliation. -/
def newBodyA (files : List FileChange) (old o r sha : Str) : Str :=
  reconcileBody (sectionA (addedMigrations files) o r sha) old

/-! ### Variant B (`src/.github/scripts/pr-db-changes.js`)

The script tests each basename against the regex `^\d+.(?:un)?do.[\s\S]*?.sql$`
(dots are unescaped, so they match any character except a line terminator),
groups matching files by the part of the basename before the first literal
dot, keeps per timestamp the last file for each `split(".")[1]` role, and
renders a special format when exactly one timestamp key exists. -/

/-- Characters excluded by the JS `.` metacharacter (line terminators). -/
def notLT (c : Char) : Bool :=
  !(c == '\n' || c == '\r' || c == '\u2028' || c == '\u2029')

/-- Matcher for the regex tail `[\s\S]*?.sql$`: some characters, then one
non-line-terminator character, then the literal `sql` at the end. -/
def tailOk : Str → Bool
  | [] => false
  | c :: t => if t = str "sql" then notLT c else tailOk t

/-- Matcher for `.[\s\S]*?.sql$` after the `do`/`undo` infix. -/
def midOk : Str → Bool
  | [] => false
  | c :: t => notLT c && tailOk t

/-- Matcher for `(?:un)?do.[\s\S]*?.sql$`. -/
def doPart (r : Str) : Bool :=
  (lpre (str "do") r && midOk (r.drop 2)) || (lpre (str "undo") r && midOk (r.drop 4))

/-- Matcher for `.(?:un)?do.[\s\S]*?.sql$` after the digits. -/
def afterDig : Str → Bool
  | [] => false
  | c :: t => notLT c && doPart t

/-- Matcher for the part after the first digit: more digits, then the rest. -/
def goDig (r : Str) : Bool :=
  afterDig r ||
    match r with
    | [] => false
    | c :: t => c.isDigit && goDig t

/-- Source `regex.test(name)` for `/^\d+.(?:un)?do.[\s\S]*?.sql$/` with
backtracking existential semantics. -/
def matchesRegex : Str → Bool
  | [] => false
  | c :: t => c.isDigit && goDig t

/-- Source `name.split(".")[0]`: the grouping timestamp key. -/
def tsOf (n : Str) : Str := (splitCh '.' n).headD []

/-- Source `name.split(".")[1]`: the role key (`undefined` when there is no dot). -/
def roleOf (n : Str) : Option Str := (splitCh '.' n).get? 1

/-- The detected files whose basename passes the regex test: exactly the
files that contribute a key to the `pairs` object. -/
def groupedFiles (dl : List FileChange) : List FileChange :=
  dl.filter (fun f => matchesRegex (baseName f.filename))

/-- Lexicographic comparison of strings (JS default `Array.prototype.sort`
comparator on strings). -/
def lexLe : Str → Str → Bool
  | [], _ => true
  | _ :: _, [] => false
  | a :: as, b :: bs => if a < b then true else if b < a then false else lexLe as bs

/-- Insert into a lexicographically sorted list. -/
def insLex (x : Str) : List Str → List Str
  | [] => [x]
  | y :: ys => if lexLe x y then x :: y :: ys else y :: insLex x ys

/-- Insertion sort by `lexLe`. -/
def sortLex : List Str → List Str
  | [] => []
  | x :: xs => insLex x (sortLex xs)

/-- Source `Object.keys(pairs).sort()`: the distinct timestamp keys of the grouped
mapping, sorted. -/
def tsKeys (dl : List FileChange) : List Str :=
  sortLex (((groupedFiles dl).map (fun f => tsOf (baseName f.filename))).dedup)

/-- Source lookup of the pairs object: the last regex-matching file with timestamp key `t`
and role key `role` (later assignments overwrite earlier ones). -/
def roleFile (dl : List FileChange) (t role : Str) : Option FileChange :=
  ((groupedFiles dl).filter
    (fun f => tsOf (baseName f.filename) == t && roleOf (baseName f.filename) == some role)).getLast?

/-- Source `doLineCount`: lines of the patch starting with `+` but not `+++`. -/
def addedCount (p : Option Str) : Nat :=
  ((splitCh '\n' (p.getD [])).filter
    (fun l => lpre (str "+") l && ! lpre (str "+++") l)).length

/-- Source `formatLoneMigration` destructured on the do and undo roles.  Accessing
`doFile.patch` or `undoFile.filename` on an absent (`undefined`) file throws
a `TypeError`, modelled as `Except.error ()`. -/
def formatLone (doF undoF : Option FileChange) (o r sha : Str) : Except Unit Str :=
  match doF, undoF with
  | some d, some u =>
    .ok (str "Do ðŸ‘‡ Undo ðŸ‘‰ " ++ fileLink o r sha u ++ str "\n" ++
      fileUrl o r sha d.filename ++ str "#L1-L" ++ natStr (addedCount d.patch + 1))
  | _, _ => .error ()

/-- Source `formatMultipleMigrations`: the flat list over all detected migrations,
prefixed with the fixed sentence; empty when there are no lines. -/
def formatMulti (dl : List FileChange) (o r sha : Str) : Str :=
  let L := linesA dl o r sha
  if L = [] then []
  else str "This PR adds the following migration files:\n\n" ++ L

/-- Source `formatMigrations(addedMigrations)`: the lone format when exactly one
timestamp key exists, the flat format otherwise. -/
def formatMigs (dl : List FileChange) (o r sha : Str) : Except Unit Str :=
  let ts := tsKeys dl
  if ts.length = 1 then
    formatLone (roleFile dl (ts.headD []) (str "do")) (roleFile dl (ts.headD []) (str "undo")) o r sha
  else .ok (formatMulti dl o r sha)

/-- Variant B section: always wrapped in the markers, whatever
`formatMigrations` returned. -/
def sectionB (fm : Str) : Str :=
  startM ++ (str "\n" ++ heading ++ nl2 ++ fm ++ nl2 ++ endM)

/-- Variant B new body for a run; `Except.error ()` when the summary
rendering throws. -/
def newBodyB (files : List FileChange) (old o r sha : Str) : Except Unit Str :=
  (formatMigs (addedMigrations files) o r sha).map (fun fm => reconcileBody (sectionB fm) old)

/-! ### Label reconciliation (identical in both variants) -/

/-- Outcomes of the two label calls that the scripts guard with `try`:
`none` means success, `some s` a failure whose `status` is `s`. -/
structure LabelEnv where
  getSt : Option Nat
  removeSt : Option Nat
deriving DecidableEq

/-- The label API calls a run can issue. -/
inductive LabelCall where
  | getL (name : Str)
  | createL (name color desc : Str)
  | addL (names : List Str)
  | removeL (name : Str)
deriving DecidableEq

/-- Source `ensureLabelExists`: query the label by name; on a 404 failure create it
with the fixed color and description; any other failure propagates. -/
def ensureLabel (env : LabelEnv) : Except Nat (List LabelCall) :=
  match env.getSt with
  | none => .ok [.getL labelName]
  | some s =>
    if s = 404 then
      .ok [.getL labelName,
           .createL labelName (str "1778d3") (str "PR introduces database migration files")]
    else .error s

/-- The label region of `run`: `d` is `addedMigrations.length > 0`, `has` is
`prLabels.includes(labelName)`.  Returns the calls issued and whether the
label is present afterwards, or the propagated failure status. -/
def labelRun (d has : Bool) (env : LabelEnv) : Except Nat (List LabelCall × Bool) :=
  if d then
    if has then .ok ([], true)
    else
      match ensureLabel env with
      | .error s => .error s
      | .ok cs => .ok (cs ++ [.addL [labelName]], true)
  else
    if has then
      match env.removeSt with
      | none => .ok ([.removeL labelName], false)
      | some s =>
        if s = 404 then .ok ([.removeL labelName], false) else .error s
    else .ok ([], false)

/-- Source `addedMigrations.length > 0` as a Bool. -/
def detectedB (files : List FileChange) : Bool :=
  decide (0 < (addedMigrations files).length)

/-! ### Lemmas about `lpre` -/

theorem lpre_iff_take {p l : Str} : lpre p l = true ↔ l.take p.length = p := by
  induction p generalizing l with
  | nil => simp [lpre]
  | cons a as ih =>
    cases l with
    | nil => simp [lpre]
    | cons b bs =>
      simp only [lpre, Bool.and_eq_true, beq_iff_eq, List.take, List.length_cons,
        List.cons.injEq, ih]
      tauto

theorem lpre_self_append (p u : Str) : lpre p (p ++ u) = true := by
  rw [lpre_iff_take, List.take_append_of_le_length (by omega), List.take_length]

theorem lpre_length {p l : Str} (h : lpre p l = true) : p.length ≤ l.length := by
  rw [lpre_iff_take] at h
  have := congrArg List.length h
  simp at this
  omega

theorem lpre_append_left {p x y : Str} (h : lpre p (x ++ y) = true)
    (hl : p.length ≤ x.length) : lpre p x = true := by
  rw [lpre_iff_take] at h ⊢
  rwa [List.take_append_of_le_length hl] at h

theorem lpre_append_right {p a : Str} (b : Str) (h : lpre p a = true) :
    lpre p (a ++ b) = true := by
  have hl := lpre_length h
  rw [lpre_iff_take] at h ⊢
  rw [List.take_append_of_le_length hl, h]

theorem lpre_append_split {p x y : Str} (h : lpre p (x ++ y) = true)
    (hl : x.length < p.length) : p.take x.length = x ∧ lpre (p.drop x.length) y = true := by
  induction x generalizing p with
  | nil => simpa using h
  | cons c cs ih =>
    cases p with
    | nil => simp at hl
    | cons a as =>
      simp only [List.cons_append, lpre, Bool.and_eq_true, beq_iff_eq] at h
      obtain ⟨rfl, h2⟩ := h
      have := ih h2 (by simpa using Nat.lt_of_succ_lt_succ hl)
      simp [List.take, List.drop, this.1, this.2]

theorem lpre_ne_nil {c : Char} {cs l : Str} (h : lpre (c :: cs) l = true) : l ≠ [] := by
  intro hl; subst hl; simp [lpre] at h

theorem lpre_head {c : Char} {cs l : Str} (h : lpre (c :: cs) l = true) :
    ∃ t, l = c :: t := by
  cases l with
  | nil => simp [lpre] at h
  | cons b bs =>
    simp only [lpre, Bool.and_eq_true, beq_iff_eq] at h
    exact ⟨bs, by rw [h.1]⟩

theorem lpre_iff_exists {p l : Str} : lpre p l = true ↔ ∃ t, l = p ++ t := by
  constructor
  · intro h
    refine ⟨l.drop p.length, ?_⟩
    conv_lhs => rw [← List.take_append_drop p.length l]
    rw [lpre_iff_take.mp h]
  · rintro ⟨t, rfl⟩; exact lpre_self_append p t

/-! ### Lemmas about `findOcc` -/

theorem findOcc_none_imp {pat s : Str} (h : findOcc pat s = none) :
    ∀ q, lpre pat (s.drop q) = false := by
  induction s with
  | nil =>
    intro q
    rw [List.drop_nil]
    cases hb : lpre pat [] with
    | false => rfl
    | true => simp [findOcc, hb] at h
  | cons c t ih =>
    intro q
    cases hb : lpre pat (c :: t) with
    | true => simp [findOcc, hb] at h
    | false =>
      cases q with
      | zero => simpa using hb
      | succ q' =>
        have ht : findOcc pat t = none := by
          simp only [findOcc, hb] at h
          simpa using h
        simpa using ih ht q'

theorem findOcc_eq_none_of {pat s : Str} (h : ∀ q, lpre pat (s.drop q) = false) :
    findOcc pat s = none := by
  induction s with
  | nil =>
    have h0 := h 0
    rw [List.drop_nil] at h0
    simp [findOcc, h0]
  | cons c t ih =>
    have h0 := h 0
    rw [List.drop_zero] at h0
    have ht := ih (fun q => by simpa using h (q + 1))
    simp [findOcc, h0, ht]

theorem findOcc_eq_some_of {pat s : Str} {p : Nat}
    (h1 : lpre pat (s.drop p) = true)
    (h2 : ∀ q, q < p → lpre pat (s.drop q) = false) :
    findOcc pat s = some p := by
  induction s generalizing p with
  | nil =>
    rw [List.drop_nil] at h1
    have hp0 : p = 0 := by
      by_contra hne
      have h0 := h2 0 (Nat.pos_of_ne_zero hne)
      rw [List.drop_nil] at h0
      rw [h0] at h1
      exact Bool.noConfusion h1
    subst hp0
    simp [findOcc, h1]
  | cons c t ih =>
    cases p with
    | zero =>
      rw [List.drop_zero] at h1
      simp [findOcc, h1]
    | succ p' =>
      have h0 := h2 0 (Nat.succ_pos _)
      rw [List.drop_zero] at h0
      have hr := ih (p := p') (by simpa using h1)
        (fun q hq => by simpa using h2 (q + 1) (Nat.succ_lt_succ hq))
      simp [findOcc, h0, hr]

theorem findOcc_some_imp {pat s : Str} {p : Nat} (h : findOcc pat s = some p) :
    lpre pat (s.drop p) = true := by
  induction s generalizing p with
  | nil =>
    cases hb : lpre pat [] with
    | false => simp [findOcc, hb] at h
    | true =>
      have hp : p = 0 := by simpa [findOcc, hb] using h.symm
      subst hp
      simpa using hb
  | cons c t ih =>
    cases hb : lpre pat (c :: t) with
    | true =>
      have hp : p = 0 := by simpa [findOcc, hb] using h.symm
      subst hp
      simpa using hb
    | false =>
      simp only [findOcc, hb] at h
      simp only [Bool.false_eq_true, if_false] at h
      obtain ⟨v, hv, hv2⟩ := Option.map_eq_some'.mp h
      subst hv2
      simpa using ih hv

/-! ### Border-freeness of the markers and occurrence-location lemmas -/

/-- Pattern border-freeness: no dropping of `0 < k < pat.length`
characters yields a prefix of `pat`. -/
def noBorder (pat : Str) : Prop :=
  ∀ k, k < pat.length → 0 < k → pat.drop k ≠ pat.take (pat.length - k)

theorem noBorder_startM : noBorder startM := by unfold noBorder; decide

theorem noBorder_endM : noBorder endM := by unfold noBorder; decide

theorem startM_ne_nil : startM ≠ [] := by decide

theorem endM_ne_nil : endM ≠ [] := by decide

/-- If `pat` does not occur in `a` and has no nontrivial border, its first
occurrence in `a ++ pat ++ u` is exactly at the end of `a`. -/
theorem findOcc_before_pat {pat a : Str} (u : Str)
    (hA : findOcc pat a = none) (hNB : noBorder pat) :
    findOcc pat (a ++ pat ++ u) = some a.length := by
  rw [List.append_assoc]
  apply findOcc_eq_some_of
  · rw [List.drop_left]
    exact lpre_self_append pat u
  · intro q hq
    cases hocc : lpre pat ((a ++ (pat ++ u)).drop q) with
    | false => rfl
    | true =>
      exfalso
      rw [List.drop_append_of_le_length (Nat.le_of_lt hq)] at hocc
      rcases Nat.lt_or_ge (a.drop q).length pat.length with hlt | hle
      · obtain ⟨htk, hdr⟩ := lpre_append_split hocc hlt
        have hd : lpre (pat.drop (a.drop q).length) pat = true :=
          lpre_append_left hdr (by simp)
        rw [lpre_iff_take] at hd
        have hk : (a.drop q).length < pat.length := hlt
        have hpos : 0 < (a.drop q).length := by
          have hld : (a.drop q).length = a.length - q := List.length_drop ..
          omega
        exact hNB (a.drop q).length hk hpos (by rw [← hd]; simp)
      · have := lpre_append_left hocc hle
        rw [findOcc_none_imp hA q] at this
        exact Bool.noConfusion this

/-- If `pat` contains no newline, does not occur in `a`, and `b` consists of
newlines only, then `pat` does not occur in `a ++ b`. -/
theorem findOcc_append_nlfree {pat a b : Str} (hpat : ∀ c ∈ pat, c ≠ '\n')
    (hpne : pat ≠ []) (hb : ∀ c ∈ b, c = '\n')
    (hA : findOcc pat a = none) : findOcc pat (a ++ b) = none := by
  apply findOcc_eq_none_of
  intro q
  cases hocc : lpre pat ((a ++ b).drop q) with
  | false => rfl
  | true =>
    exfalso
    obtain ⟨c0, pr, rfl⟩ : ∃ c0 pr, pat = c0 :: pr := by
      cases pat with
      | nil => exact absurd rfl hpne
      | cons x xs => exact ⟨x, xs, rfl⟩
    rcases Nat.lt_or_ge q a.length with hq | hq
    · rw [List.drop_append_of_le_length (Nat.le_of_lt hq)] at hocc
      rcases Nat.lt_or_ge (a.drop q).length (c0 :: pr).length with hlt | hle
      · obtain ⟨-, hdr⟩ := lpre_append_split hocc hlt
        have hne : (c0 :: pr).drop (a.drop q).length ≠ [] := by
          intro hnil
          have hlen := congrArg List.length hnil
          simp only [List.length_drop, List.length_nil] at hlen
          have hde : (a.drop q).length = a.length - q := List.length_drop ..
          omega
        obtain ⟨d, ds, hds⟩ : ∃ d ds, (c0 :: pr).drop (a.drop q).length = d :: ds := by
          cases hx : (c0 :: pr).drop (a.drop q).length with
          | nil => exact absurd hx hne
          | cons d ds => exact ⟨d, ds, rfl⟩
        rw [hds] at hdr
        obtain ⟨t, ht⟩ := lpre_head hdr
        have hdb : d ∈ b := ht ▸ List.mem_cons_self d t
        have hdp : d ∈ (c0 :: pr) := List.mem_of_mem_drop (hds ▸ List.mem_cons_self d ds)
        exact hpat d hdp (hb d hdb)
      · have := lpre_append_left hocc hle
        rw [findOcc_none_imp hA q] at this
        exact Bool.noConfusion this
    · obtain ⟨i, rfl⟩ : ∃ i, q = a.length + i := ⟨q - a.length, by omega⟩
      rw [List.drop_append] at hocc
      obtain ⟨t, ht⟩ := lpre_head hocc
      have hcb : c0 ∈ b := List.mem_of_mem_drop (ht ▸ List.mem_cons_self c0 t)
      exact hpat c0 (List.mem_cons_self c0 pr) (hb c0 hcb)

/-- If the head of `pat` does not occur in `a` and `pat` does not occur in
`b`, then `pat` does not occur in `a ++ b`. -/
theorem findOcc_append_hd {a b : Str} {c0 : Char} {pr : Str}
    (ha : c0 ∉ a) (hB : findOcc (c0 :: pr) b = none) :
    findOcc (c0 :: pr) (a ++ b) = none := by
  apply findOcc_eq_none_of
  intro q
  cases hocc : lpre (c0 :: pr) ((a ++ b).drop q) with
  | false => rfl
  | true =>
    exfalso
    rcases Nat.lt_or_ge q a.length with hq | hq
    · rw [List.drop_append_of_le_length (Nat.le_of_lt hq)] at hocc
      obtain ⟨x, w, hw⟩ : ∃ x w, a.drop q = x :: w := by
        cases hx : a.drop q with
        | nil =>
          have := congrArg List.length hx
          simp only [List.length_drop, List.length_nil] at this
          omega
        | cons x w => exact ⟨x, w, rfl⟩
      rw [hw, List.cons_append] at hocc
      obtain ⟨t, ht⟩ := lpre_head hocc
      have : x = c0 := by injection ht with h1 _
      subst this
      exact ha (List.mem_of_mem_drop (hw ▸ List.mem_cons_self x w))
    · obtain ⟨i, rfl⟩ : ∃ i, q = a.length + i := ⟨q - a.length, by omega⟩
      rw [List.drop_append] at hocc
      rw [findOcc_none_imp hB i] at hocc
      exact Bool.noConfusion hocc

/-- Non-occurrence transfers to any infix. -/
theorem findOcc_none_of_infix {pat t s : Str} (hpne : pat ≠ [])
    (hinf : t <:+: s) (h : findOcc pat s = none) : findOcc pat t = none := by
  apply findOcc_eq_none_of
  intro q
  cases hocc : lpre pat (t.drop q) with
  | false => rfl
  | true =>
    exfalso
    obtain ⟨xl, xr, rfl⟩ := hinf
    rcases le_or_lt q t.length with hq | hq
    · have h1 : lpre pat (t.drop q ++ xr) = true := lpre_append_right xr hocc
      have h2 : (xl ++ (t ++ xr)).drop (xl.length + q) = t.drop q ++ xr := by
        rw [List.drop_append, List.drop_append_of_le_length hq]
      have hh := findOcc_none_imp h (xl.length + q)
      rw [List.append_assoc, h2, h1] at hh
      exact Bool.noConfusion hh
    · rw [List.drop_eq_nil_of_le (Nat.le_of_lt hq)] at hocc
      cases pat with
      | nil => exact hpne rfl
      | cons x xs => simp [lpre] at hocc

/-- Non-occurrence transfers to any prefix. -/
theorem findOcc_none_of_isPre {pat t s : Str} (hpne : pat ≠ [])
    (hp : t <+: s) (h : findOcc pat s = none) : findOcc pat t = none :=
  findOcc_none_of_infix hpne hp.isInfix h

/-! ### Lemmas about `trimEnd` -/

theorem trimEnd_isPre (s : Str) : trimEnd s <+: s := by
  have h1 : s.reverse.dropWhile isWs <:+ s.reverse := List.dropWhile_suffix isWs
  have := List.reverse_prefix.mpr h1
  rwa [List.reverse_reverse] at this

theorem trimEnd_idem (s : Str) : trimEnd (trimEnd s) = trimEnd s := by
  unfold trimEnd
  rw [List.reverse_reverse, List.dropWhile_idempotent]

theorem dropWhile_append_all {p : Char → Bool} {x : Str} (l : Str)
    (hx : ∀ c ∈ x, p c = true) : List.dropWhile p (x ++ l) = List.dropWhile p l := by
  induction x with
  | nil => rfl
  | cons c x' ih =>
    rw [List.cons_append, List.dropWhile_cons,
      if_pos (hx c (List.mem_cons_self c x')),
      ih (fun d hd => hx d (List.mem_cons_of_mem c hd))]

theorem trimEnd_append_ws {b : Str} (a : Str) (hb : ∀ c ∈ b, isWs c = true) :
    trimEnd (a ++ b) = trimEnd a := by
  unfold trimEnd
  rw [List.reverse_append, dropWhile_append_all a.reverse
    (fun c hc => hb c (List.mem_reverse.mp hc))]

theorem dropWhile_eq_self_iff_head {p : Char → Bool} {l : Str} :
    List.dropWhile p l = l ↔ ∀ c, l.head? = some c → p c = false := by
  cases l with
  | nil => simp
  | cons c t =>
    cases hp : p c with
    | true =>
      rw [List.dropWhile_cons]
      simp only [hp, if_true, List.head?_cons]
      constructor
      · intro h
        exfalso
        have h1 : (List.dropWhile p t).length ≤ t.length := (List.dropWhile_suffix p).length_le
        have h2 := congrArg List.length h
        simp only [List.length_cons] at h2
        omega
      · intro h
        exfalso
        have hc := h c rfl
        rw [hp] at hc
        exact Bool.noConfusion hc
    | false =>
      rw [List.dropWhile_cons]
      simp only [hp, Bool.false_eq_true, if_false, List.head?_cons, true_iff]
      intro c' hc'
      cases hc'
      exact hp

theorem trimEnd_eq_self_iff {s : Str} :
    trimEnd s = s ↔ ∀ c, s.getLast? = some c → isWs c = false := by
  unfold trimEnd
  rw [List.reverse_eq_iff, dropWhile_eq_self_iff_head]
  simp only [List.head?_reverse]

/-! ### Lemmas about `matchSplit`, `stripAll` and `countMatches` -/

theorem matchSplit_none {s : Str} (h : findOcc startM s = none) : matchSplit s = none := by
  unfold matchSplit
  rw [h]

theorem matchSplit_nil : matchSplit [] = none :=
  matchSplit_none (by decide)

/-- The splice lemma: in `t ++ START ++ mid ++ END ++ rest` where `START` does
not occur in `t` and `END` does not occur in `mid`, the first match is exactly
the wrapped section. -/
theorem matchSplit_mk {t mid : Str} (rest : Str)
    (ht : findOcc startM t = none) (hm : findOcc endM mid = none) :
    matchSplit (t ++ startM ++ mid ++ endM ++ rest) = some (t, rest) := by
  have h1 : findOcc startM (t ++ startM ++ (mid ++ endM ++ rest)) = some t.length :=
    findOcc_before_pat _ ht noBorder_startM
  have h2 : findOcc endM (mid ++ endM ++ rest) = some mid.length :=
    findOcc_before_pat _ hm noBorder_endM
  unfold matchSplit
  have e1 : t ++ startM ++ mid ++ endM ++ rest = t ++ startM ++ (mid ++ endM ++ rest) := by
    simp [List.append_assoc]
  rw [e1, h1]
  dsimp only
  have e2 : (t ++ startM ++ (mid ++ endM ++ rest)).drop (t.length + startM.length) =
      mid ++ endM ++ rest := by
    rw [List.append_assoc, List.append_assoc]
    rw [show t.length + startM.length = t.length + (startM.length + 0) by omega]
    rw [List.drop_append, List.drop_append, List.drop_zero]
  rw [e2, h2]
  dsimp only
  have e3 : (mid ++ endM ++ rest).drop (mid.length + endM.length) = rest := by
    rw [List.append_assoc]
    rw [show mid.length + endM.length = mid.length + (endM.length + 0) by omega]
    rw [List.drop_append, List.drop_append, List.drop_zero]
  rw [e3]
  have e4 : (t ++ startM ++ (mid ++ endM ++ rest)).take t.length = t := by
    rw [List.append_assoc, List.take_append_of_le_length (by simp), List.take_length]
  rw [e4]

/-- A successful `matchSplit` strictly shrinks the string. -/
theorem matchSplit_length {s a r : Str} (h : matchSplit s = some (a, r)) :
    r.length < s.length := by
  unfold matchSplit at h
  cases h1 : findOcc startM s with
  | none => rw [h1] at h; exact Option.noConfusion h
  | some p =>
    rw [h1] at h
    dsimp only at h
    cases h2 : findOcc endM (s.drop (p + startM.length)) with
    | none => rw [h2] at h; exact Option.noConfusion h
    | some q =>
      rw [h2] at h
      dsimp only at h
      simp only [Option.some.injEq, Prod.mk.injEq] at h
      obtain ⟨-, hr⟩ := h
      have hocc1 := findOcc_some_imp h1
      have hocc2 := findOcc_some_imp h2
      have hl1 : startM.length ≤ (s.drop p).length := lpre_length hocc1
      have hl2 : endM.length ≤ ((s.drop (p + startM.length)).drop q).length :=
        lpre_length hocc2
      have hsl : 0 < startM.length := by decide
      have hd1 : (s.drop p).length = s.length - p := List.length_drop ..
      subst hr
      have hd2 : (((s.drop (p + startM.length)).drop (q + endM.length))).length =
          s.length - (p + startM.length) - (q + endM.length) := by
        simp only [List.length_drop]
      have hd3 : ((s.drop (p + startM.length)).drop q).length =
          s.length - (p + startM.length) - q := by
        simp only [List.length_drop]
      omega

theorem stripAllF_congr {s : Str} : ∀ f1 f2, s.length ≤ f1 → s.length ≤ f2 →
    stripAllF f1 s = stripAllF f2 s := by
  induction s using (measure List.length).wf.induction with
  | _ s ih =>
    intro f1 f2 hf1 hf2
    cases f1 with
    | zero =>
      have : s = [] := List.length_eq_zero.mp (Nat.le_zero.mp hf1)
      subst this
      cases f2 with
      | zero => rfl
      | succ g => simp [stripAllF, matchSplit_nil]
    | succ g1 =>
      cases f2 with
      | zero =>
        have : s = [] := List.length_eq_zero.mp (Nat.le_zero.mp hf2)
        subst this
        simp [stripAllF, matchSplit_nil]
      | succ g2 =>
        simp only [stripAllF]
        cases hms : matchSplit s with
        | none => rfl
        | some ar =>
          obtain ⟨a, r⟩ := ar
          have hlt : r.length < s.length := matchSplit_length hms
          dsimp only
          rw [ih r hlt g1 g2 (by omega) (by omega)]

theorem stripAll_of_none {s : Str} (h : matchSplit s = none) : stripAll s = s := by
  unfold stripAll
  cases hl : s.length with
  | zero => rfl
  | succ n => simp [stripAllF, h]

theorem stripAll_step {s a r : Str} (h : matchSplit s = some (a, r)) :
    stripAll s = a ++ stripAll r := by
  have hlt : r.length < s.length := matchSplit_length h
  unfold stripAll
  cases hl : s.length with
  | zero =>
    exfalso
    have : s = [] := List.length_eq_zero.mp hl
    subst this
    rw [matchSplit_nil] at h
    exact Option.noConfusion h
  | succ n =>
    simp only [stripAllF, h]
    rw [stripAllF_congr n r.length (by omega) (by omega)]

theorem countOf_none {s : Str} (h : matchSplit s = none) : countMatches s = 0 := by
  unfold countMatches
  cases hl : s.length with
  | zero => rfl
  | succ n => simp [countF, h]

theorem countOf_step {s a r : Str} (h : matchSplit s = some (a, r)) :
    countMatches s = countMatches r + 1 := by
  have hlt : r.length < s.length := matchSplit_length h
  have congrC : ∀ x : Str, ∀ f1 f2, x.length ≤ f1 → x.length ≤ f2 →
      countF f1 x = countF f2 x := by
    intro x
    induction x using (measure List.length).wf.induction with
    | _ x ih =>
      intro f1 f2 hf1 hf2
      cases f1 with
      | zero =>
        have : x = [] := List.length_eq_zero.mp (Nat.le_zero.mp hf1)
        subst this
        cases f2 with
        | zero => rfl
        | succ g => simp [countF, matchSplit_nil]
      | succ g1 =>
        cases f2 with
        | zero =>
          have : x = [] := List.length_eq_zero.mp (Nat.le_zero.mp hf2)
          subst this
          simp [countF, matchSplit_nil]
        | succ g2 =>
          simp only [countF]
          cases hms : matchSplit x with
          | none => rfl
          | some ar =>
            obtain ⟨a', r'⟩ := ar
            have hlt' : r'.length < x.length := matchSplit_length hms
            dsimp only
            rw [ih r' hlt' g1 g2 (by omega) (by omega)]
  unfold countMatches
  cases hl : s.length with
  | zero =>
    exfalso
    have : s = [] := List.length_eq_zero.mp hl
    subst this
    rw [matchSplit_nil] at h
    exact Option.noConfusion h
  | succ n =>
    simp only [countF, h]
    rw [congrC r n r.length (by omega) (by omega)]

/-! ### Structured bodies -/

theorem startM_no_nl : ∀ c ∈ startM, c ≠ '\n' := by decide

theorem endM_no_nl : ∀ c ∈ endM, c ≠ '\n' := by decide

theorem nl2_all_nl : ∀ c ∈ nl2, c = '\n' := by decide

theorem endM_cons : endM = '<' :: str "!-- DATABASE_CHANGES_END -->" := by decide

/-- A body made of unrelated texts interleaved with well-formed sections. -/
def mkBody : List (Str × Str) → Str → Str
  | [], tf => tf
  | (t, mid) :: rest, tf => t ++ startM ++ mid ++ endM ++ mkBody rest tf

/-- The unrelated texts of a structured body, concatenated in order. -/
def catT : List (Str × Str) → Str → Str
  | [], tf => tf
  | (t, _) :: rest, tf => t ++ catT rest tf

theorem catT_infix_fst : ∀ (chunks : List (Str × Str)) (tf : Str) (p : Str × Str),
    p ∈ chunks → p.1 <:+: catT chunks tf := by
  intro chunks
  induction chunks with
  | nil => intro tf p hp; exact absurd hp (List.not_mem_nil p)
  | cons q rest ih =>
    intro tf p hp
    obtain ⟨t, mid⟩ := q
    rcases List.mem_cons.mp hp with rfl | hp'
    · exact ⟨[], catT rest tf, by simp [catT]⟩
    · obtain ⟨xl, xr, hx⟩ := ih tf p hp'
      exact ⟨t ++ xl, xr, by simp [catT, hx, List.append_assoc]⟩

theorem catT_infix_tf : ∀ (chunks : List (Str × Str)) (tf : Str),
    tf <:+: catT chunks tf := by
  intro chunks
  induction chunks with
  | nil => intro tf; exact ⟨[], [], by simp [catT]⟩
  | cons q rest ih =>
    intro tf
    obtain ⟨t, mid⟩ := q
    obtain ⟨xl, xr, hx⟩ := ih tf
    exact ⟨t ++ xl, xr, by simp [catT, hx, List.append_assoc]⟩

/-- Stripping a structured body removes exactly the sections. -/
theorem stripAll_mkBody : ∀ (chunks : List (Str × Str)) (tfin : Str),
    (∀ p ∈ chunks, findOcc startM p.1 = none) →
    (∀ p ∈ chunks, findOcc endM p.2 = none) →
    findOcc startM tfin = none →
    stripAll (mkBody chunks tfin) = catT chunks tfin := by
  intro chunks
  induction chunks with
  | nil =>
    intro tfin _ _ hF
    exact stripAll_of_none (matchSplit_none hF)
  | cons q rest ih =>
    intro tfin hT hM hF
    obtain ⟨t, mid⟩ := q
    have hms := matchSplit_mk (mkBody rest tfin)
      (hT (t, mid) (List.mem_cons_self _ _)) (hM (t, mid) (List.mem_cons_self _ _))
    rw [show mkBody ((t, mid) :: rest) tfin = t ++ startM ++ mid ++ endM ++ mkBody rest tfin
      from rfl]
    rw [stripAll_step hms,
      ih tfin (fun p hp => hT p (List.mem_cons_of_mem _ hp))
        (fun p hp => hM p (List.mem_cons_of_mem _ hp)) hF]
    rfl

/-- A structured body contains exactly one match per section. -/
theorem countMatches_mkBody : ∀ (chunks : List (Str × Str)) (tfin : Str),
    (∀ p ∈ chunks, findOcc startM p.1 = none) →
    (∀ p ∈ chunks, findOcc endM p.2 = none) →
    findOcc startM tfin = none →
    countMatches (mkBody chunks tfin) = chunks.length := by
  intro chunks
  induction chunks with
  | nil =>
    intro tfin _ _ hF
    exact countOf_none (matchSplit_none hF)
  | cons q rest ih =>
    intro tfin hT hM hF
    obtain ⟨t, mid⟩ := q
    have hms := matchSplit_mk (mkBody rest tfin)
      (hT (t, mid) (List.mem_cons_self _ _)) (hM (t, mid) (List.mem_cons_self _ _))
    rw [show mkBody ((t, mid) :: rest) tfin = t ++ startM ++ mid ++ endM ++ mkBody rest tfin
      from rfl]
    rw [countOf_step hms,
      ih tfin (fun p hp => hT p (List.mem_cons_of_mem _ hp))
        (fun p hp => hM p (List.mem_cons_of_mem _ hp)) hF]
    rfl

/-! ### Behaviour of `joinBody`, `stripAll` and `trimEnd` on reconciled bodies -/

theorem joinBody_nil_left (b : Str) : joinBody [] b = b := by simp [joinBody]

theorem joinBody_nil_right (a : Str) : joinBody a [] = a := by
  unfold joinBody
  by_cases h : a = []
  · simp [h]
  · simp [h]

theorem joinBody_cons {a b : Str} (ha : a ≠ []) (hb : b ≠ []) :
    joinBody a b = a ++ nl2 ++ b := by
  simp [joinBody, ha, hb]

/-- The marker `START` does not occur in `R ++ nl2` when it does not occur in `R`. -/
theorem findOcc_startM_nl2 {R : Str} (hR : findOcc startM R = none) :
    findOcc startM (R ++ nl2) = none :=
  findOcc_append_nlfree startM_no_nl startM_ne_nil nl2_all_nl hR

/-- Stripping `joinBody R (startM ++ i ++ endM)` yields `R` again followed by
the separator (or nothing when `R` is empty). -/
theorem strip_join_sect {R i : Str} (hR : findOcc startM R = none)
    (hi : findOcc endM i = none) :
    stripAll (joinBody R (startM ++ i ++ endM)) = if R = [] then [] else R ++ nl2 := by
  by_cases hRe : R = []
  · subst hRe
    rw [joinBody_nil_left, if_pos rfl]
    have hms := @matchSplit_mk [] i [] (by decide) hi
    simp only [List.nil_append, List.append_nil] at hms
    rw [stripAll_step hms, stripAll_of_none matchSplit_nil]
    rfl
  · rw [if_neg hRe]
    have hsect : startM ++ i ++ endM ≠ [] := by
      intro hx
      have := congrArg List.length hx
      simp only [List.length_append, List.length_nil] at this
      have h31 : startM.length = 31 := by decide
      omega
    rw [joinBody_cons hRe hsect]
    have hms := @matchSplit_mk (R ++ nl2) i []
      (findOcc_startM_nl2 hR) hi
    simp only [List.append_nil] at hms
    have he : R ++ nl2 ++ (startM ++ i ++ endM) = R ++ nl2 ++ startM ++ i ++ endM := by
      simp [List.append_assoc]
    rw [he, stripAll_step hms, stripAll_of_none matchSplit_nil, List.append_nil]

/-- Counting matches of `joinBody R (startM ++ i ++ endM)`: exactly one. -/
theorem count_join_sect {R i : Str} (hR : findOcc startM R = none)
    (hi : findOcc endM i = none) :
    countMatches (joinBody R (startM ++ i ++ endM)) = 1 := by
  by_cases hRe : R = []
  · subst hRe
    rw [joinBody_nil_left]
    have hms := @matchSplit_mk [] i [] (by decide) hi
    simp only [List.nil_append, List.append_nil] at hms
    rw [countOf_step hms, countOf_none matchSplit_nil]
  · have hsect : startM ++ i ++ endM ≠ [] := by
      intro hx
      have := congrArg List.length hx
      simp only [List.length_append, List.length_nil] at this
      have h31 : startM.length = 31 := by decide
      omega
    rw [joinBody_cons hRe hsect]
    have hms := @matchSplit_mk (R ++ nl2) i []
      (findOcc_startM_nl2 hR) hi
    simp only [List.append_nil] at hms
    have he : R ++ nl2 ++ (startM ++ i ++ endM) = R ++ nl2 ++ startM ++ i ++ endM := by
      simp [List.append_assoc]
    rw [he, countOf_step hms, countOf_none matchSplit_nil]

/-! ### Reconciliation master lemmas -/

theorem nl2_all_ws : ∀ c ∈ nl2, isWs c = true := by decide

/-- Stripping and trimming a reconciled body recovers the trimmed remainder. -/
theorem reconcile_again {R sect : Str} (hR : findOcc startM R = none)
    (hRt : trimEnd R = R)
    (hsect : sect = [] ∨ ∃ i, sect = startM ++ i ++ endM ∧ findOcc endM i = none) :
    trimEnd (stripAll (joinBody R sect)) = R := by
  rcases hsect with rfl | ⟨i, rfl, hi⟩
  · rw [joinBody_nil_right, stripAll_of_none (matchSplit_none hR), hRt]
  · rw [strip_join_sect hR hi]
    by_cases hRe : R = []
    · simp [hRe, trimEnd]
    · rw [if_neg hRe, trimEnd_append_ws R nl2_all_ws, hRt]

/-- Idempotence of the body reconciliation under clean-marker hypotheses. -/
theorem reconcile_idem {old sect : Str} (h1 : findOcc startM (stripAll old) = none)
    (hsect : sect = [] ∨ ∃ i, sect = startM ++ i ++ endM ∧ findOcc endM i = none) :
    reconcileBody sect (reconcileBody sect old) = reconcileBody sect old := by
  have hR : findOcc startM (trimEnd (stripAll old)) = none :=
    findOcc_none_of_isPre startM_ne_nil (trimEnd_isPre _) h1
  show joinBody (trimEnd (stripAll (joinBody (trimEnd (stripAll old)) sect))) sect =
    joinBody (trimEnd (stripAll old)) sect
  rw [reconcile_again hR (trimEnd_idem _) hsect]

/-- Section count of a reconciled body. -/
theorem count_reconcile {R sect : Str} (hR : findOcc startM R = none)
    (hsect : sect = [] ∨ ∃ i, sect = startM ++ i ++ endM ∧ findOcc endM i = none) :
    countMatches (joinBody R sect) = if sect = [] then 0 else 1 := by
  rcases hsect with rfl | ⟨i, rfl, hi⟩
  · rw [joinBody_nil_right, if_pos rfl]
    exact countOf_none (matchSplit_none hR)
  · have hsne : startM ++ i ++ endM ≠ [] := by
      intro hx
      have := congrArg List.length hx
      simp only [List.length_append, List.length_nil] at this
      have h31 : startM.length = 31 := by decide
      omega
    rw [if_neg hsne]
    exact count_join_sect hR hi

/-! ### Shape of the rendered sections -/

theorem joinSep_cons_ne_nil {sep x : Str} {xs : List Str} (hx : x ≠ []) :
    joinSep sep (x :: xs) ≠ [] := by
  cases xs with
  | nil => exact hx
  | cons y ys =>
    show x ++ sep ++ joinSep sep (y :: ys) ≠ []
    intro h
    rw [List.append_eq_nil, List.append_eq_nil] at h
    exact hx h.1.1

theorem linesA_eq_nil_iff {dl : List FileChange} {o r sha : Str} :
    linesA dl o r sha = [] ↔ dl = [] := by
  cases dl with
  | nil => simp [linesA, joinSep]
  | cons f fs =>
    simp only [linesA, List.map_cons]
    constructor
    · intro h
      exact absurd h (joinSep_cons_ne_nil (by simp [str]))
    · intro h
      exact absurd h (List.cons_ne_nil f fs)

/-- The interior of a variant-A section. -/
def iA (dl : List FileChange) (o r sha : Str) : Str :=
  str "\n" ++ heading ++ str "\n\nThis PR adds the following migration files:\n\n" ++
    linesA dl o r sha ++ nl2

theorem sectionA_of_nil {dl : List FileChange} {o r sha : Str} (h : dl = []) :
    sectionA dl o r sha = [] := by
  subst h
  simp [sectionA, linesA, joinSep]

theorem sectionA_of_ne {dl : List FileChange} {o r sha : Str} (h : dl ≠ []) :
    sectionA dl o r sha = startM ++ iA dl o r sha ++ endM := by
  have hL : linesA dl o r sha ≠ [] := fun hx => h (linesA_eq_nil_iff.mp hx)
  simp only [sectionA, iA, if_neg hL]

/-- The marker `END` does not occur in the interior of a variant-A section, provided it
does not occur in the rendered link lines. -/
theorem iA_endM_free {dl : List FileChange} {o r sha : Str}
    (hL : findOcc endM (linesA dl o r sha) = none) :
    findOcc endM (iA dl o r sha) = none := by
  rw [endM_cons] at hL ⊢
  unfold iA
  rw [List.append_assoc, List.append_assoc, List.append_assoc]
  apply findOcc_append_hd (by decide)
  apply findOcc_append_hd (by decide)
  apply findOcc_append_hd (by decide)
  rw [← endM_cons] at hL ⊢
  exact findOcc_append_nlfree endM_no_nl endM_ne_nil nl2_all_nl hL

/-- The interior of a variant-B section. -/
def iB (fm : Str) : Str := str "\n" ++ heading ++ nl2 ++ fm ++ nl2

theorem sectionB_eq (fm : Str) : sectionB fm = startM ++ iB fm ++ endM := by
  simp only [sectionB, iB]
  simp [List.append_assoc]

/-- The marker `END` does not occur in the interior of a variant-B section, provided it
does not occur in the rendered summary. -/
theorem iB_endM_free {fm : Str} (hfm : findOcc endM fm = none) :
    findOcc endM (iB fm) = none := by
  rw [endM_cons] at hfm ⊢
  unfold iB
  rw [List.append_assoc, List.append_assoc, List.append_assoc]
  apply findOcc_append_hd (by decide)
  apply findOcc_append_hd (by decide)
  apply findOcc_append_hd (by decide)
  rw [← endM_cons] at hfm ⊢
  exact findOcc_append_nlfree endM_no_nl endM_ne_nil nl2_all_nl hfm

/-! ### Concrete inputs used by witnesses and counterexamples -/

/-- Concrete repository owner. -/
def o0 : Str := str "o"

/-- Concrete repository name. -/
def r0 : Str := str "r"

/-- Concrete head commit sha. -/
def sha0 : Str := str "s"

/-- A single added `do` migration with three added lines in its patch. -/
def fDo : FileChange :=
  ⟨str "database/rentec/schema/migrations/20240101.do.x.sql", str "added",
    some (str "+++ b\n+1\n+2\n+3")⟩

/-- The matching added `undo` migration. -/
def fUndo : FileChange :=
  ⟨str "database/rentec/schema/migrations/20240101.undo.x.sql", str "added", none⟩

/-- An added migration of a second timestamp. -/
def fDo2 : FileChange :=
  ⟨str "database/rentec/schema/migrations/20240202.do.y.sql", str "added", none⟩

/-- An added migration whose basename has no literal dot at all. -/
def fWeird : FileChange :=
  ⟨str "database/rentec/schema/migrations/1xdoYZsql", str "added", none⟩

/-! ### Claim C5 -/

/-- Claim C5: the change detector returns exactly the records with status
`added` whose filename starts with the fixed migrations prefix, and the empty
list maps to the empty list. -/
theorem detector_exact : ∀ (files : List FileChange) (f : FileChange),
    (f ∈ addedMigrations files ↔
      f ∈ files ∧ f.status = str "added" ∧ lpre migDir f.filename = true) ∧
    addedMigrations ([] : List FileChange) = [] := by
  intro files f
  refine ⟨?_, rfl⟩
  rw [addedMigrations, List.mem_filter]
  simp only [Bool.and_eq_true, beq_iff_eq]

/-! ### Claim C10 -/

/-- Claim C10: in the flat-list variant, with zero detected migrations and no
existing section, the new body is the old body with trailing whitespace
removed, and a write is issued exactly when the old body ends in whitespace. -/
theorem emptyRun_trims : ∀ (files : List FileChange) (old o r sha : Str),
    addedMigrations files = [] → matchSplit old = none →
    newBodyA files old o r sha = trimEnd old ∧
    (newBodyA files old o r sha ≠ old ↔
      ∃ c, old.getLast? = some c ∧ isWs c = true) := by
  intro files old o r sha hdet hms
  have hsect : sectionA (addedMigrations files) o r sha = [] := sectionA_of_nil hdet
  have hbody : newBodyA files old o r sha = trimEnd old := by
    unfold newBodyA reconcileBody
    rw [hsect, joinBody_nil_right, stripAll_of_none hms]
  refine ⟨hbody, ?_⟩
  rw [hbody]
  constructor
  · intro hne
    cases hlast : old.getLast? with
    | none =>
      exfalso
      exact hne (trimEnd_eq_self_iff.mpr (fun c hc => by rw [hlast] at hc; cases hc))
    | some c =>
      cases hws : isWs c with
      | true => exact ⟨c, rfl, hws⟩
      | false =>
        exfalso
        apply hne
        apply trimEnd_eq_self_iff.mpr
        intro c' hc'
        rw [hlast] at hc'
        cases hc'
        exact hws
  · rintro ⟨c, hlast, hws⟩ heq
    have := trimEnd_eq_self_iff.mp heq c hlast
    rw [hws] at this
    exact Bool.noConfusion this

/-- Witness for C10 at a concrete input: `"hi\n"` is trimmed to `"hi"` and a
write is issued; the hypothesis side conditions hold by evaluation. -/
theorem emptyRun_trims_witness :
    newBodyA [] (str "hi\n") o0 r0 sha0 = trimEnd (str "hi\n") ∧
    newBodyA [] (str "hi\n") o0 r0 sha0 ≠ str "hi\n" :=
  ⟨(emptyRun_trims [] (str "hi\n") o0 r0 sha0 rfl (by decide)).1,
   (emptyRun_trims [] (str "hi\n") o0 r0 sha0 rfl (by decide)).2.mpr
     ⟨'\n', by decide, by decide⟩⟩

/-! ### Claim C3 -/

/-- Claim C3: the label reconciler implements exactly the four-transition
table, with the label looked up by exact name, created with color `1778d3`
and the fixed description on a 404, other lookup failures propagated, and a
404 during removal treated as a no-op. -/
theorem labelTable : ∀ (env : LabelEnv) (s : Nat),
    (env.getSt = none →
      labelRun true false env = .ok ([.getL labelName, .addL [labelName]], true)) ∧
    (env.getSt = some 404 →
      labelRun true false env = .ok ([.getL labelName,
        .createL labelName (str "1778d3") (str "PR introduces database migration files"),
        .addL [labelName]], true)) ∧
    (env.getSt = some s → s ≠ 404 → labelRun true false env = .error s) ∧
    labelRun true true env = .ok ([], true) ∧
    (env.removeSt = none ∨ env.removeSt = some 404 →
      labelRun false true env = .ok ([.removeL labelName], false)) ∧
    (env.removeSt = some s → s ≠ 404 → labelRun false true env = .error s) ∧
    labelRun false false env = .ok ([], false) := by
  intro env s
  refine ⟨?_, ?_, ?_, ?_, ?_, ?_, ?_⟩
  · intro h; simp [labelRun, ensureLabel, h]
  · intro h; simp [labelRun, ensureLabel, h]
  · intro h hne; simp [labelRun, ensureLabel, h, hne]
  · simp [labelRun]
  · rintro (h | h) <;> simp [labelRun, h]
  · intro h hne; simp [labelRun, h, hne]
  · simp [labelRun]

/-- Witness for C3: the add-after-create path at a 404 lookup, and the
propagation of a 500 removal failure, at concrete environments. -/
theorem labelTable_witness :
    labelRun true false ⟨some 404, none⟩ = .ok ([.getL labelName,
      .createL labelName (str "1778d3") (str "PR introduces database migration files"),
      .addL [labelName]], true) ∧
    labelRun false true ⟨none, some 500⟩ = .error 500 :=
  ⟨(labelTable ⟨some 404, none⟩ 0).2.1 rfl,
   (labelTable ⟨none, some 500⟩ 500).2.2.2.2.2.1 rfl (by decide)⟩

/-! ### Claim C1 -/

/-- Claim C1 (code bug in the do/undo-aware variant): with zero detected
migration files the script still appends a heading-only delimited section to
the body, instead of leaving the body without any section. -/
theorem emptySectionAppended :
    addedMigrations ([] : List FileChange) = [] ∧
    newBodyB ([] : List FileChange) (str "Fix typo") o0 r0 sha0 =
      .ok (str "Fix typo\n\n<!-- DATABASE_CHANGES_START -->\n### Database changes\n\n\n\n<!-- DATABASE_CHANGES_END -->") ∧
    countMatches
      (str "Fix typo\n\n<!-- DATABASE_CHANGES_START -->\n### Database changes\n\n\n\n<!-- DATABASE_CHANGES_END -->") = 1 :=
  ⟨rfl, rfl, by decide⟩

/-! ### Claim C8 -/

/-- Claim C8 (code bug): with exactly one timestamp key and the undo file
absent, the lone-migration rendering throws (modelled as `Except.error`)
instead of handling the missing file gracefully; likewise with the do file
absent. -/
theorem loneRenderThrows :
    (tsKeys [fDo]).length = 1 ∧
    roleFile [fDo] (str "20240101") (str "undo") = none ∧
    formatMigs [fDo] o0 r0 sha0 = .error () ∧
    (tsKeys [fUndo]).length = 1 ∧
    roleFile [fUndo] (str "20240101") (str "do") = none ∧
    formatMigs [fUndo] o0 r0 sha0 = .error () :=
  ⟨by decide, by decide, rfl, by decide, by decide, rfl⟩

/-! ### Claim C9 -/

/-- Claim C9: when migrations are detected but the grouped mapping does not
have exactly one timestamp key, the do/undo-aware variant renders the flat
list and computes exactly the same new body as the flat-list variant. -/
theorem flatFallback_eq : ∀ (files : List FileChange) (old o r sha : Str),
    addedMigrations files ≠ [] → (tsKeys (addedMigrations files)).length ≠ 1 →
    newBodyB files old o r sha = .ok (newBodyA files old o r sha) := by
  intro files old o r sha hne hts
  have hL : linesA (addedMigrations files) o r sha ≠ [] :=
    fun hx => hne (linesA_eq_nil_iff.mp hx)
  have hfm : formatMigs (addedMigrations files) o r sha =
      .ok (str "This PR adds the following migration files:\n\n" ++
        linesA (addedMigrations files) o r sha) := by
    simp only [formatMigs, formatMulti]
    rw [if_neg hts, if_neg hL]
  have hTeq : (str "\n\nThis PR adds the following migration files:\n\n" : Str) =
      nl2 ++ str "This PR adds the following migration files:\n\n" := by decide
  have hsec : sectionB (str "This PR adds the following migration files:\n\n" ++
      linesA (addedMigrations files) o r sha) = sectionA (addedMigrations files) o r sha := by
    rw [sectionB_eq, sectionA_of_ne hne]
    unfold iB iA
    rw [hTeq]
    simp [List.append_assoc]
  unfold newBodyB
  rw [hfm]
  show Except.ok (reconcileBody (sectionB _) old) = _
  rw [hsec]
  rfl

/-- Witness for C9: two timestamps, both variants produce the same body. -/
theorem flatFallback_eq_witness :
    newBodyB [fDo, fDo2] (str "Hello") o0 r0 sha0 =
      .ok (newBodyA [fDo, fDo2] (str "Hello") o0 r0 sha0) :=
  flatFallback_eq [fDo, fDo2] (str "Hello") o0 r0 sha0 (by decide) (by decide)

/-! ### Claim C2 -/

theorem labelRun_ok_snd {d has : Bool} {env : LabelEnv} {cs : List LabelCall}
    {h1 : Bool} (h : labelRun d has env = .ok (cs, h1)) : h1 = d := by
  cases d with
  | true =>
    cases has with
    | true =>
      simp only [labelRun, if_true, Except.ok.injEq, Prod.mk.injEq] at h
      exact h.2.symm
    | false =>
      cases hg : env.getSt with
      | none =>
        simp only [labelRun, ensureLabel, hg, if_true, Bool.false_eq_true, if_false,
          Except.ok.injEq, Prod.mk.injEq] at h
        exact h.2.symm
      | some v =>
        by_cases hv : v = 404
        · subst hv
          simp only [labelRun, ensureLabel, hg, if_true, Bool.false_eq_true, if_false,
            Except.ok.injEq, Prod.mk.injEq] at h
          exact h.2.symm
        · simp only [labelRun, ensureLabel, hg, if_neg hv, if_true, Bool.false_eq_true,
            if_false] at h
          exact Except.noConfusion h
  | false =>
    cases has with
    | true =>
      cases hr : env.removeSt with
      | none =>
        simp only [labelRun, Bool.false_eq_true, if_false, if_true, hr,
          Except.ok.injEq, Prod.mk.injEq] at h
        exact h.2.symm
      | some v =>
        by_cases hv : v = 404
        · subst hv
          simp only [labelRun, Bool.false_eq_true, if_false, if_true, hr,
            Except.ok.injEq, Prod.mk.injEq] at h
          exact h.2.symm
        · simp only [labelRun, Bool.false_eq_true, if_false, if_true, hr, if_neg hv] at h
          exact Except.noConfusion h
    | false =>
      simp only [labelRun, Bool.false_eq_true, if_false, Except.ok.injEq,
        Prod.mk.injEq] at h
      exact h.2.symm

theorem labelRun_stable (d : Bool) (env : LabelEnv) :
    labelRun d d env = .ok ([], d) := by
  cases d <;> simp [labelRun]

/-- Claim C2 (amended): provided the stripped body contains no stray start
marker and the rendered link lines contain no end marker, a second run with
unchanged inputs computes the same body (hence issues no body update) and
performs no label operation, leaving the label state unchanged. -/
theorem secondRun_noop : ∀ (files : List FileChange) (old o r sha : Str)
    (env : LabelEnv) (has : Bool) (cs : List LabelCall) (has1 : Bool),
    findOcc startM (stripAll old) = none →
    findOcc endM (linesA (addedMigrations files) o r sha) = none →
    labelRun (detectedB files) has env = .ok (cs, has1) →
    newBodyA files (newBodyA files old o r sha) o r sha = newBodyA files old o r sha ∧
    labelRun (detectedB files) has1 env = .ok ([], has1) ∧
    ∀ fm, formatMigs (addedMigrations files) o r sha = .ok fm →
      findOcc endM fm = none →
      newBodyB files old o r sha = .ok (reconcileBody (sectionB fm) old) ∧
      newBodyB files (reconcileBody (sectionB fm) old) o r sha =
        .ok (reconcileBody (sectionB fm) old) := by
  intro files old o r sha env has cs has1 h1 h2 hlr
  refine ⟨?_, ?_, ?_⟩
  · unfold newBodyA
    apply reconcile_idem h1
    by_cases hdl : addedMigrations files = []
    · exact Or.inl (sectionA_of_nil hdl)
    · exact Or.inr ⟨iA (addedMigrations files) o r sha, sectionA_of_ne hdl, iA_endM_free h2⟩
  · have hsnd := labelRun_ok_snd hlr
    rw [hsnd]
    exact labelRun_stable _ env
  · intro fm hfm hfmE
    have hb1 : newBodyB files old o r sha = .ok (reconcileBody (sectionB fm) old) := by
      unfold newBodyB
      rw [hfm]
      rfl
    refine ⟨hb1, ?_⟩
    unfold newBodyB
    rw [hfm]
    show Except.ok (reconcileBody (sectionB fm) (reconcileBody (sectionB fm) old)) = _
    rw [reconcile_idem h1 (Or.inr ⟨iB fm, sectionB_eq fm, iB_endM_free hfmE⟩)]

/-- Witness for C2 (amended) at a concrete input: one detected migration,
clean body, successful first label run. -/
theorem secondRun_noop_witness :
    newBodyA [fDo, fUndo] (newBodyA [fDo, fUndo] (str "hello") o0 r0 sha0) o0 r0 sha0 =
      newBodyA [fDo, fUndo] (str "hello") o0 r0 sha0 ∧
    labelRun (detectedB [fDo, fUndo]) true ⟨none, none⟩ = .ok ([], true) :=
  ⟨(secondRun_noop [fDo, fUndo] (str "hello") o0 r0 sha0 ⟨none, none⟩ false
      [.getL labelName, .addL [labelName]] true (by decide) (by decide) rfl).1,
   (secondRun_noop [fDo, fUndo] (str "hello") o0 r0 sha0 ⟨none, none⟩ false
      [.getL labelName, .addL [labelName]] true (by decide) (by decide) rfl).2.1⟩

/-- Counterexample for C2 as stated: a body consisting of a lone start
marker.  The first run appends a section after it; the second run, with
unchanged inputs, strips from the stray marker through the appended section
and produces a different body, so it issues another update. -/
theorem secondRun_counterex :
    newBodyA [fDo] (newBodyA [fDo] startM o0 r0 sha0) o0 r0 sha0 ≠
      newBodyA [fDo] startM o0 r0 sha0 := by decide

/-! ### Claim C4 -/

/-- Claim C4: running on a body made of any number of previously written
sections interleaved with unrelated marker-free text leaves at most one
section (exactly one iff the rendered content is non-empty), and the new body
is the unrelated text, in order, trimmed, joined with the fresh section. -/
theorem singleSection : ∀ (chunks : List (Str × Str)) (tfin : Str)
    (files : List FileChange) (o r sha : Str),
    findOcc startM (catT chunks tfin) = none →
    (∀ pc ∈ chunks, findOcc endM pc.2 = none) →
    findOcc endM (linesA (addedMigrations files) o r sha) = none →
    countMatches (newBodyA files (mkBody chunks tfin) o r sha) =
      (if addedMigrations files = [] then 0 else 1) ∧
    newBodyA files (mkBody chunks tfin) o r sha =
      joinBody (trimEnd (catT chunks tfin)) (sectionA (addedMigrations files) o r sha) := by
  intro chunks tfin files o r sha hT hM hL
  have hTfst : ∀ pc ∈ chunks, findOcc startM pc.1 = none := fun pc hpc =>
    findOcc_none_of_infix startM_ne_nil (catT_infix_fst chunks tfin pc hpc) hT
  have hTf : findOcc startM tfin = none :=
    findOcc_none_of_infix startM_ne_nil (catT_infix_tf chunks tfin) hT
  have hstrip : stripAll (mkBody chunks tfin) = catT chunks tfin :=
    stripAll_mkBody chunks tfin hTfst hM hTf
  have hbody : newBodyA files (mkBody chunks tfin) o r sha =
      joinBody (trimEnd (catT chunks tfin)) (sectionA (addedMigrations files) o r sha) := by
    unfold newBodyA reconcileBody
    rw [hstrip]
  refine ⟨?_, hbody⟩
  rw [hbody]
  have hR : findOcc startM (trimEnd (catT chunks tfin)) = none :=
    findOcc_none_of_isPre startM_ne_nil (trimEnd_isPre _) hT
  by_cases hdl : addedMigrations files = []
  · rw [sectionA_of_nil hdl, if_pos hdl, joinBody_nil_right]
    exact countOf_none (matchSplit_none hR)
  · rw [sectionA_of_ne hdl, if_neg hdl]
    exact count_join_sect hR (iA_endM_free hL)

/-- A concrete structured body: unrelated text, one old section, a suffix. -/
def chunks0 : List (Str × Str) := [(str "Intro\n", str "\nold stuff\n")]

/-- The unrelated suffix of the concrete structured body. -/
def tf0 : Str := str "\nOutro"

/-- Witness for C4: one old section is replaced, exactly one section remains
and the unrelated text survives in order. -/
theorem singleSection_witness :
    countMatches (newBodyA [fDo] (mkBody chunks0 tf0) o0 r0 sha0) = 1 ∧
    newBodyA [fDo] (mkBody chunks0 tf0) o0 r0 sha0 =
      joinBody (trimEnd (catT chunks0 tf0)) (sectionA (addedMigrations [fDo]) o0 r0 sha0) :=
  ⟨(singleSection chunks0 tf0 [fDo] o0 r0 sha0 (by decide) (by decide) (by decide)).1.trans
    (by decide),
   (singleSection chunks0 tf0 [fDo] o0 r0 sha0 (by decide) (by decide) (by decide)).2⟩

/-! ### Claim C7: characterization of the basename regex -/

theorem tailOk_iff : ∀ {r : Str}, tailOk r = true ↔
    ∃ rst c3, r = rst ++ [c3] ++ str "sql" ∧ notLT c3 = true := by
  intro r
  induction r with
  | nil =>
    simp only [tailOk]
    constructor
    · intro h; exact Bool.noConfusion h
    · rintro ⟨rst, c3, h, -⟩
      have := congrArg List.length h
      simp [str] at this
  | cons c t ih =>
    by_cases ht : t = str "sql"
    · subst ht
      simp only [tailOk, if_pos rfl]
      constructor
      · intro h
        exact ⟨[], c, rfl, h⟩
      · rintro ⟨rst, c3, heq, hn⟩
        have hlen := congrArg List.length heq
        simp [str] at hlen
        subst hlen
        simp only [List.nil_append, List.cons_append, List.cons.injEq] at heq
        rw [heq.1]
        exact hn
    · rw [show tailOk (c :: t) = tailOk t from by simp [tailOk, ht]]
      rw [ih]
      constructor
      · rintro ⟨rst, c3, rfl, hn⟩
        exact ⟨c :: rst, c3, rfl, hn⟩
      · rintro ⟨rst, c3, heq, hn⟩
        cases rst with
        | nil =>
          exfalso
          simp only [List.nil_append, List.cons_append, List.cons.injEq] at heq
          exact ht heq.2
        | cons x rst' =>
          simp only [List.cons_append, List.cons.injEq] at heq
          exact ⟨rst', c3, heq.2, hn⟩

theorem midOk_iff : ∀ {r : Str}, midOk r = true ↔
    ∃ c2 rst c3, r = [c2] ++ rst ++ [c3] ++ str "sql" ∧
      notLT c2 = true ∧ notLT c3 = true := by
  intro r
  cases r with
  | nil =>
    simp only [midOk]
    constructor
    · intro h; exact Bool.noConfusion h
    · rintro ⟨c2, rst, c3, h, -⟩
      have := congrArg List.length h
      simp [str] at this
  | cons c t =>
    simp only [midOk, Bool.and_eq_true, tailOk_iff]
    constructor
    · rintro ⟨hc, rst, c3, rfl, hn⟩
      exact ⟨c, rst, c3, rfl, hc, hn⟩
    · rintro ⟨c2, rst, c3, heq, h2, h3⟩
      simp only [List.cons_append, List.singleton_append, List.cons.injEq] at heq
      obtain ⟨rfl, rfl⟩ := heq
      exact ⟨h2, rst, c3, rfl, h3⟩

theorem doPart_iff : ∀ {r : Str}, doPart r = true ↔
    ∃ m rest, (m = str "do" ∨ m = str "undo") ∧ r = m ++ rest ∧ midOk rest = true := by
  intro r
  simp only [doPart, Bool.or_eq_true, Bool.and_eq_true]
  constructor
  · rintro (⟨hp, hm⟩ | ⟨hp, hm⟩)
    · obtain ⟨rest, rfl⟩ := lpre_iff_exists.mp hp
      refine ⟨str "do", rest, Or.inl rfl, rfl, ?_⟩
      rwa [show (str "do" ++ rest).drop 2 = rest from rfl] at hm
    · obtain ⟨rest, rfl⟩ := lpre_iff_exists.mp hp
      refine ⟨str "undo", rest, Or.inr rfl, rfl, ?_⟩
      rwa [show (str "undo" ++ rest).drop 4 = rest from rfl] at hm
  · rintro ⟨m, rest, (rfl | rfl), rfl, hm⟩
    · exact Or.inl ⟨lpre_self_append _ rest,
        by rwa [show (str "do" ++ rest).drop 2 = rest from rfl]⟩
    · exact Or.inr ⟨lpre_self_append _ rest,
        by rwa [show (str "undo" ++ rest).drop 4 = rest from rfl]⟩

theorem afterDig_iff : ∀ {r : Str}, afterDig r = true ↔
    ∃ c1 t, r = c1 :: t ∧ notLT c1 = true ∧ doPart t = true := by
  intro r
  cases r with
  | nil =>
    simp only [afterDig]
    constructor
    · intro h; exact Bool.noConfusion h
    · rintro ⟨c1, t, h, -⟩; exact List.noConfusion h
  | cons c t =>
    simp only [afterDig, Bool.and_eq_true]
    constructor
    · rintro ⟨h1, h2⟩; exact ⟨c, t, rfl, h1, h2⟩
    · rintro ⟨c1, t', heq, h1, h2⟩
      obtain ⟨hc, ht⟩ : c = c1 ∧ t = t' := by simpa using heq
      subst hc; subst ht
      exact ⟨h1, h2⟩

theorem goDig_iff : ∀ {r : Str}, goDig r = true ↔
    ∃ ds r2, r = ds ++ r2 ∧ (∀ c ∈ ds, c.isDigit = true) ∧ afterDig r2 = true := by
  intro r
  induction r with
  | nil =>
    rw [show goDig [] = false from rfl]
    constructor
    · intro h; exact Bool.noConfusion h
    · rintro ⟨ds, r2, heq, -, ha⟩
      obtain ⟨rfl, rfl⟩ := List.append_eq_nil.mp heq.symm
      rw [show afterDig [] = false from rfl] at ha
      exact Bool.noConfusion ha
  | cons c t ih =>
    rw [show goDig (c :: t) = (afterDig (c :: t) || (c.isDigit && goDig t)) from rfl]
    simp only [Bool.or_eq_true, Bool.and_eq_true]
    constructor
    · rintro (h | ⟨hd, hg⟩)
      · exact ⟨[], c :: t, rfl, by simp, h⟩
      · obtain ⟨ds, r2, rfl, hds, ha⟩ := ih.mp hg
        refine ⟨c :: ds, r2, rfl, ?_, ha⟩
        intro x hx
        rcases List.mem_cons.mp hx with rfl | hx'
        · exact hd
        · exact hds x hx'
    · rintro ⟨ds, r2, heq, hds, ha⟩
      cases ds with
      | nil =>
        simp only [List.nil_append] at heq
        subst heq
        exact Or.inl ha
      | cons x ds' =>
        simp only [List.cons_append, List.cons.injEq] at heq
        obtain ⟨hcx, rfl⟩ := heq
        subst hcx
        exact Or.inr ⟨hds c (List.mem_cons_self c ds'),
          ih.mpr ⟨ds', r2, rfl, fun y hy => hds y (List.mem_cons_of_mem c hy), ha⟩⟩

/-- The existential (backtracking) semantics of the source regex
`/^\d+.(?:un)?do.[\s\S]*?.sql$/`: the unescaped dots match any single
non-line-terminator character. -/
def RegexSpec (n : Str) : Prop :=
  ∃ d c1 m c2 rst c3, n = d ++ [c1] ++ m ++ [c2] ++ rst ++ [c3] ++ str "sql" ∧
    d ≠ [] ∧ (∀ c ∈ d, c.isDigit = true) ∧ (m = str "do" ∨ m = str "undo") ∧
    notLT c1 = true ∧ notLT c2 = true ∧ notLT c3 = true

theorem matchesRegex_iff : ∀ {n : Str}, matchesRegex n = true ↔ RegexSpec n := by
  intro n
  cases n with
  | nil =>
    rw [show matchesRegex [] = false from rfl]
    constructor
    · intro h; exact Bool.noConfusion h
    · rintro ⟨d, c1, m, c2, rst, c3, heq, hne, -⟩
      cases d with
      | nil => exact (hne rfl).elim
      | cons x xs => exact List.noConfusion heq
  | cons c t =>
    rw [show matchesRegex (c :: t) = (c.isDigit && goDig t) from rfl]
    simp only [Bool.and_eq_true, goDig_iff]
    constructor
    · rintro ⟨hd, ds, r2, rfl, hds, ha⟩
      obtain ⟨c1, t2, rfl, h1, hdp⟩ := afterDig_iff.mp ha
      obtain ⟨m, rest, hm, rfl, hmid⟩ := doPart_iff.mp hdp
      obtain ⟨c2, rst, c3, rfl, h2, h3⟩ := midOk_iff.mp hmid
      refine ⟨c :: ds, c1, m, c2, rst, c3, ?_, List.cons_ne_nil c ds, ?_, hm, h1, h2, h3⟩
      · simp [List.append_assoc]
      · intro x hx
        rcases List.mem_cons.mp hx with rfl | hx'
        · exact hd
        · exact hds x hx'
    · rintro ⟨d, c1, m, c2, rst, c3, heq, hne, hdig, hm, h1, h2, h3⟩
      cases d with
      | nil => exact (hne rfl).elim
      | cons x ds =>
        simp only [List.cons_append, List.cons.injEq] at heq
        obtain ⟨hcx, rfl⟩ := heq
        subst hcx
        refine ⟨hdig c (List.mem_cons_self c ds), ds,
          [c1] ++ m ++ [c2] ++ rst ++ [c3] ++ str "sql",
          by simp [List.append_assoc],
          fun y hy => hdig y (List.mem_cons_of_mem c hy), ?_⟩
        apply afterDig_iff.mpr
        refine ⟨c1, m ++ [c2] ++ rst ++ [c3] ++ str "sql", by simp [List.append_assoc], h1, ?_⟩
        apply doPart_iff.mpr
        refine ⟨m, [c2] ++ rst ++ [c3] ++ str "sql", hm, by simp [List.append_assoc], ?_⟩
        exact midOk_iff.mpr ⟨c2, rst, c3, rfl, h2, h3⟩

theorem splitCh_headD : ∀ (c : Char) (s : Str),
    (splitCh c s).headD [] = s.takeWhile (fun x => !(x == c)) := by
  intro c s
  induction s with
  | nil => rfl
  | cons x xs ih =>
    cases hxc : (x == c) with
    | true =>
      simp only [splitCh, hxc, if_true, List.takeWhile_cons, Bool.not_true,
        Bool.false_eq_true, if_false]
      rfl
    | false =>
      simp only [splitCh, hxc, Bool.false_eq_true, if_false, List.takeWhile_cons,
        Bool.not_false, if_true]
      cases hs : splitCh c xs with
      | nil =>
        rw [hs] at ih
        simp only [List.headD_nil] at ih
        simp [← ih]
      | cons h tl =>
        rw [hs] at ih
        simp only [List.headD_cons] at ih
        simp [← ih]

/-- Claim C7 (amended): a detected file participates in timestamp grouping
iff its basename matches the source regex, whose unescaped dots match any
single non-line-terminator character (so basenames without literal dots can
participate); the grouping key is the part of the basename before the first
literal dot - the entire basename when there is none. -/
theorem regexParticipation :
    (∀ n : Str, matchesRegex n = true ↔ RegexSpec n) ∧
    (∀ (dl : List FileChange) (f : FileChange),
      f ∈ groupedFiles dl ↔ f ∈ dl ∧ RegexSpec (baseName f.filename)) ∧
    (∀ n : Str, tsOf n = n.takeWhile (fun x => !(x == '.'))) := by
  refine ⟨fun n => matchesRegex_iff, ?_, fun n => splitCh_headD '.' n⟩
  intro dl f
  rw [groupedFiles, List.mem_filter]
  exact and_congr_right (fun _ => matchesRegex_iff)

/-- Modelled from the spec (wording of claim C7): the literal-dot pattern
`^<digits>.(do|undo).<anything>.sql$`, in which the dots are literal dot
characters and `do`/`undo` is a case-sensitive literal infix. -/
def specLiteralPattern (n : Str) : Bool :=
  let d := n.takeWhile Char.isDigit
  let r1 := n.dropWhile Char.isDigit
  decide (d ≠ []) &&
    ((lpre (str ".do.") r1 && lpre (str "lqs.") (r1.drop 4).reverse) ||
     (lpre (str ".undo.") r1 && lpre (str "lqs.") (r1.drop 6).reverse))

/-- Counterexample to C7 as stated: the basename `1xdoYZsql` does not match
the literal-dot pattern, yet the file participates in grouping (the unescaped
dots of the source regex match the `x`, `Y` and `Z`), with the whole basename
as its grouping key. -/
theorem regexParticipation_counterex :
    fWeird ∈ groupedFiles (addedMigrations [fWeird]) ∧
    tsKeys (addedMigrations [fWeird]) = [str "1xdoYZsql"] ∧
    specLiteralPattern (baseName fWeird.filename) = false ∧
    matchesRegex (baseName fWeird.filename) = true := by
  refine ⟨?_, by decide, by decide, by decide⟩
  decide

/-! ### Claim C6 -/

/-- Claim C6: with exactly one timestamp key and both files present, the lone
format names the undo file in the link and links the do file with the
fragment `#L1-L(count+1)`, `count` being the number of patch lines starting
with `+` but not `+++`. -/
theorem loneFragment : ∀ (dl : List FileChange) (o r sha : Str) (d u : FileChange),
    (tsKeys dl).length = 1 →
    roleFile dl ((tsKeys dl).headD []) (str "do") = some d →
    roleFile dl ((tsKeys dl).headD []) (str "undo") = some u →
    formatMigs dl o r sha = .ok
      (str "Do ðŸ‘‡ Undo ðŸ‘‰ " ++
        fileLink o r sha u ++ str "\n" ++ fileUrl o r sha d.filename ++
        str "#L1-L" ++ natStr (addedCount d.patch + 1)) := by
  intro dl o r sha d u h1 hdo hundo
  simp only [formatMigs]
  rw [if_pos h1, hdo, hundo]
  rfl

/-- Witness for C6: a do/undo pair whose do-file patch has three added lines
renders the fragment `#L1-L4` and names the undo file. -/
theorem loneFragment_witness :
    addedCount fDo.patch = 3 ∧
    formatMigs [fDo, fUndo] o0 r0 sha0 = .ok (str
      "Do ðŸ‘‡ Undo ðŸ‘‰ [20240101.undo.x.sql](https://github.com/o/r/blob/s/database/rentec/schema/migrations/20240101.undo.x.sql)\nhttps://github.com/o/r/blob/s/database/rentec/schema/migrations/20240101.do.x.sql#L1-L4") :=
  ⟨by decide,
   (loneFragment [fDo, fUndo] o0 r0 sha0 fDo fUndo (by decide) (by decide) (by decide)).trans rfl⟩

end PrDb
